import Mathlib

/-!
# Verification of the Neo-Agent context retrieval pipeline

Shallow embedding of the RAG retrieval core:
* `backend/src/services/rag/utils.ts` (`cleanText`, `countTokens`, `trimToTokenBudget`)
* `backend/src/services/rag/ranker.ts` (`rankResults`)
* the diversity module (`jaccardSimilarity`, `diversify`)
* the pipeline orchestrator (`retrieveContext`)

JavaScript numbers are modelled as exact rationals (`ℚ`) extended with a `nan`
element (`JNum`), since `NaN` genuinely arises in the ranker when a `createdAt`
string fails to parse (`new Date(bad).getTime()` is `NaN` and
`Math.max(0, NaN) = NaN`).  All divisions in the embedded code have constant
nonzero divisors, so infinities never arise and division is modelled only with
a rational constant divisor.  Floating-point rounding is outside the model.
-/

/-- A JavaScript number that is either an actual (rational) value or `NaN`. -/
inductive JNum where
  | nan : JNum
  | num : ℚ → JNum
deriving DecidableEq, Repr

/-- JS addition: `NaN` propagates. -/
def jadd : JNum → JNum → JNum
  | JNum.num a, JNum.num b => JNum.num (a + b)
  | _, _ => JNum.nan

/-- JS subtraction: `NaN` propagates. -/
def jsub : JNum → JNum → JNum
  | JNum.num a, JNum.num b => JNum.num (a - b)
  | _, _ => JNum.nan

/-- JS multiplication by a rational constant: `NaN` propagates. -/
def jmulC : JNum → ℚ → JNum
  | JNum.num a, c => JNum.num (a * c)
  | JNum.nan, _ => JNum.nan

/-- JS division by a nonzero rational constant: `NaN` propagates. -/
def jdivC : JNum → ℚ → JNum
  | JNum.num a, c => JNum.num (a / c)
  | JNum.nan, _ => JNum.nan

/-- `Math.max` with a constant first argument: `Math.max(c, NaN) = NaN`. -/
def jmaxC : ℚ → JNum → JNum
  | _, JNum.nan => JNum.nan
  | c, JNum.num b => JNum.num (max c b)

/-- The rational value of a non-`NaN` JS number (`0` for `NaN`). -/
def numVal : JNum → ℚ
  | JNum.nan => 0
  | JNum.num q => q

/-- JavaScript `x || 'default'` on an optional string field: both a missing
field (`undefined`) and the empty string (falsy) select the default. -/
def jsOrStr (s : Option String) (d : String) : String :=
  match s with
  | none => d
  | some v => if v = "" then d else v

/-! ## Data model

Candidates are the objects produced by `pineconeService.queryPinecone` /
consumed by `rankResults`, `diversify` and `trimToTokenBudget`: a `score`, a
`content` string, and an optional `metadata` record with optional `createdAt`,
`source` and `section` fields (the ranker and the diversifier access them only
through `result.metadata?.x`).  A present `createdAt` is modelled by the
outcome of `new Date(createdAt).getTime()`: a rational timestamp in
milliseconds when the string parses, `invalid` (i.e. `NaN`) when it does not.
An absent-or-falsy `createdAt` is modelled as `none`. -/

/-- Outcome of `new Date(createdAt)` for a present `createdAt` value. -/
inductive DateInput where
  | valid : ℚ → DateInput
  | invalid : DateInput
deriving DecidableEq, Repr

/-- `Date.prototype.getTime`: `NaN` for an invalid date. -/
def getTimeJ : DateInput → JNum
  | DateInput.valid t => JNum.num t
  | DateInput.invalid => JNum.nan

/-- The optional metadata record of a Pinecone match (`section` is renamed to
`sectionName` because `section` is a Lean keyword). -/
structure Meta where
  createdAt : Option DateInput := none
  source : Option String := none
  sectionName : Option String := none
deriving DecidableEq, Repr

/-- A raw candidate as consumed by the ranker/diversifier/budgeter. -/
structure PineconeMatch where
  score : ℚ
  content : String
  metadata : Option Meta := none
deriving DecidableEq, Repr

/-- The per-factor score breakdown attached by `rankResults`
(`debug_scores` in the source; `section` renamed to `sectionScore`). -/
structure DebugScores where
  semantic : JNum
  recency : JNum
  credibility : JNum
  sectionScore : JNum
  quality : JNum
deriving DecidableEq, Repr

/-- A ranked result: the original match spread (`...result`) plus
`final_score` and `debug_scores`. -/
structure RankedResult extends PineconeMatch where
  final_score : JNum
  debug_scores : DebugScores
deriving DecidableEq, Repr

/-! ## String utilities (`utils.ts` and the diversity module) -/

/-- The whitespace characters relevant to `\s` (ASCII fragment). -/
def jsWS (c : Char) : Bool :=
  c == ' ' || c == '\t' || c == '\n' || c == '\r'

/-- `String.prototype.split(/\s+/)` on a list of characters: split at maximal
whitespace runs; a leading or trailing run contributes an empty piece, and
splitting the empty string yields the single piece `""`. -/
def splitJS : List Char → List (List Char)
  | [] => [[]]
  | c :: rest =>
    if jsWS c then
      match rest with
      | [] => [[], []]
      | d :: _ =>
        if jsWS d then splitJS rest
        else [] :: splitJS rest
    else
      match splitJS rest with
      | [] => [[c]]
      | w :: ws => (c :: w) :: ws

/-- Collapse each maximal whitespace run to a single space
(the `/\s+/g → ' '` replacement in `cleanText`). -/
def collapseWS : List Char → List Char
  | [] => []
  | c :: rest =>
    if jsWS c then
      match rest with
      | [] => [' ']
      | d :: _ =>
        if jsWS d then collapseWS rest
        else ' ' :: collapseWS rest
    else c :: collapseWS rest

/-- `String.prototype.trim` on a character list. -/
def trimJS (l : List Char) : List Char :=
  ((l.dropWhile jsWS).reverse.dropWhile jsWS).reverse

/-- Characters removed by the `/[#*`]/g → ''` replacement in `cleanText`
(`35 = '#'`, `42 = '*'`, `96` = backtick). -/
def isMDChar (c : Char) : Bool :=
  c.toNat == 35 || c.toNat == 42 || c.toNat == 96

/-- Scan for the first occurrence of `stop`; return the (possibly empty) run
of characters before it and the remainder after it, or `none` when `stop`
does not occur.  This is how the regex pieces `([^\]]+)\]` and `[^\)]+\)`
match: the negated class runs exactly up to the first closing character. -/
def takeUntil (stop : Char) : List Char → Option (List Char × List Char)
  | [] => none
  | c :: rest =>
    if c = stop then some ([], rest)
    else
      match takeUntil stop rest with
      | some (pre, post) => some (c :: pre, post)
      | none => none

/-- One fuelled pass of the global replace
`/\[([^\]]+)\]\([^\)]+\)/g → '$1'`: at a `[`, try to match link text up to
the first `]`, an immediate `(`, and a URL up to the first `)`; on a match
emit the link text and continue after the `)`, otherwise emit the character
and advance by one.  The fuel only needs to dominate the list length. -/
def stripLinksF : Nat → List Char → List Char
  | 0, l => l
  | _ + 1, [] => []
  | fuel + 1, c :: rest =>
    if c = '[' then
      match takeUntil ']' rest with
      | some (t :: ts, rest1) =>
        match rest1 with
        | '(' :: rest2 =>
          match takeUntil ')' rest2 with
          | some (_ :: _, rest3) => (t :: ts) ++ stripLinksF fuel rest3
          | _ => c :: stripLinksF fuel rest
        | _ => c :: stripLinksF fuel rest
      | _ => c :: stripLinksF fuel rest
    else c :: stripLinksF fuel rest

/-- Remove markdown links, keeping the link text. -/
def stripLinks (l : List Char) : List Char :=
  stripLinksF l.length l

/-- `cleanText` from `utils.ts`: strip markdown links (keeping link text),
strip `#`, `*` and backtick characters, collapse whitespace, trim. -/
def cleanText (s : String) : String :=
  String.mk (trimJS (collapseWS ((stripLinks s.data).filter (fun c => !isMDChar c))))

/-- `countTokens` from `utils.ts`: `0` for the (falsy) empty string, else
`Math.ceil(length / 4)`. -/
def countTokens (text : String) : ℕ :=
  if text = "" then 0 else (text.length + 3) / 4

/-! ## Jaccard similarity (diversity module) -/

/-- `String.prototype.toLowerCase`, as a per-character map. -/
def toLowerJS (s : String) : String :=
  String.mk (s.data.map Char.toLower)

/-- The word set of a string: lower-case it, split on whitespace runs, and
collect the pieces into a set (`new Set(str.toLowerCase().split(/\s+/))`). -/
def wordFinset (s : String) : Finset String :=
  ((splitJS (toLowerJS s).data).map (fun l => String.mk l)).toFinset

/-- `jaccardSimilarity` from the diversity module:
intersection size over union size of the two word sets,
with a fallback of `0` for an empty union. -/
def jaccardSimilarity (str1 str2 : String) : ℚ :=
  let set1 := wordFinset str1
  let set2 := wordFinset str2
  let inter := set1 ∩ set2
  let union := set1 ∪ set2
  if union.card = 0 then 0 else (inter.card : ℚ) / (union.card : ℚ)

/-! ## Reranker (`ranker.ts`) -/

/-- `leadsWith pat l` : `pat` is an initial run of `l`. -/
def leadsWith : List Char → List Char → Bool
  | [], _ => true
  | _ :: _, [] => false
  | a :: as, b :: bs => a == b && leadsWith as bs

/-- `occursIn pat l` : `pat` occurs contiguously somewhere in `l`
(`String.prototype.includes`). -/
def occursIn (pat : List Char) : List Char → Bool
  | [] => leadsWith pat []
  | c :: rest => leadsWith pat (c :: rest) || occursIn pat rest

/-- `s.includes(pat)` for strings. -/
def strIncludes (s pat : String) : Bool :=
  occursIn pat.data s.data

/-- The recency factor of `rankResults`: neutral `0.5` when `createdAt` is
absent (or falsy); otherwise `Math.max(0, 1 - daysDiff / 365)` where
`daysDiff = (now - date.getTime()) / (1000*3600*24)`.  The `try/catch`
around this block is dead code: `new Date` does not throw on malformed
input, it produces an invalid date whose `getTime()` is `NaN`, and the
`NaN` then propagates through `Math.max`. -/
def recencyScore (createdAt : Option DateInput) (now : ℚ) : JNum :=
  match createdAt with
  | none => JNum.num (1/2)
  | some d =>
    let daysDiff := jdivC (jsub (JNum.num now) (getTimeJ d)) (1000 * 3600 * 24)
    jmaxC 0 (jsub (JNum.num 1) (jdivC daysDiff 365))

/-- The source credibility table of `rankResults`; every listed value is
truthy, so `sourceCredibility[source] || 0.5` only defaults on a missing
key. -/
def credibilityOf (src : String) : ℚ :=
  if src = "official_docs" then 1
  else if src = "internal_wiki" then 9/10
  else if src = "github_repo" then 4/5
  else if src = "stackoverflow" then 3/5
  else if src = "general_web" then 1/2
  else 1/2

/-- The section relevance factor of `rankResults`, computed from the
lower-cased `metadata?.section || ''`. -/
def sectionScoreOf (sec : String) : ℚ :=
  let s := toLowerJS sec
  if strIncludes s "overview" || strIncludes s "intro" || strIncludes s "api" then 1
  else if strIncludes s "deprecated" || strIncludes s "legacy" then 1/5
  else 1/2

/-- The quality factor of `rankResults`, from `(result.content || '').length`. -/
def qualityScoreOf (content : String) : ℚ :=
  let length := content.length
  if 100 < length && length < 2000 then 9/10
  else if length < 50 then 1/5
  else 1/2

/-- The per-candidate body of `rankResults`: compute the five factors and the
weighted `final_score`, and spread the original result into the output.
`result.score || 0` is the identity on rational scores (`0` maps to `0`),
so the semantic factor is the score itself. -/
def scoreResult (now : ℚ) (result : PineconeMatch) : RankedResult :=
  let semanticScore : JNum := JNum.num result.score
  let recency : JNum := recencyScore (result.metadata.bind (·.createdAt)) now
  let credibility : JNum :=
    JNum.num (credibilityOf (jsOrStr (result.metadata.bind (·.source)) "unknown"))
  let sectionSc : JNum :=
    JNum.num (sectionScoreOf (jsOrStr (result.metadata.bind (·.sectionName)) ""))
  let quality : JNum := JNum.num (qualityScoreOf result.content)
  { toPineconeMatch := result
    final_score :=
      jadd (jadd (jadd (jadd (jmulC semanticScore (50/100)) (jmulC recency (20/100)))
        (jmulC credibility (15/100))) (jmulC sectionSc (10/100))) (jmulC quality (5/100))
    debug_scores :=
      { semantic := semanticScore
        recency := recency
        credibility := credibility
        sectionScore := sectionSc
        quality := quality } }

/-- The insertion test of the stable descending sort
`.sort((a, b) => b.final_score - a.final_score)`: `x` may be placed before
`y` exactly when the comparator value `y.final_score - x.final_score` is not
positive (`NaN` compares as not-positive, which never matters for rational
scores). -/
def insBefore (x y : RankedResult) : Bool :=
  match jsub y.final_score x.final_score with
  | JNum.num q => decide (q ≤ 0)
  | JNum.nan => true

/-- Insert into an already sorted run, before any element with an equal
score (stability: the inserted element comes earlier in the input). -/
def sortInsert (x : RankedResult) : List RankedResult → List RankedResult
  | [] => [x]
  | y :: rest => if insBefore x y then x :: y :: rest else y :: sortInsert x rest

/-- Stable sort descending by `final_score` (ECMAScript `Array.prototype.sort`
with a consistent comparator is exactly the stable sort; insertion from the
right realises it). -/
def sortByScore : List RankedResult → List RankedResult
  | [] => []
  | x :: rest => sortInsert x (sortByScore rest)

/-- `rankResults` from `ranker.ts`: score every candidate, then stable-sort
descending by `final_score`.  `now` is the clock value `new Date()` reads. -/
def rankResults (now : ℚ) (results : List PineconeMatch) : List RankedResult :=
  sortByScore (results.map (scoreResult now))

/-! ## Diversifier (diversity module) -/

/-- The per-source key used by `diversify` (and by the credibility factor):
`result.metadata?.source || 'unknown'`. -/
def sourceOf (r : PineconeMatch) : String :=
  jsOrStr (r.metadata.bind (·.source)) "unknown"

/-- The duplicate test of `diversify`: the candidate's cleaned content has
Jaccard similarity above `0.85` with some already selected chunk. -/
def isDupOf (selected : List RankedResult) (r : RankedResult) : Bool :=
  selected.any (fun existing =>
    decide ((85 : ℚ)/100 < jaccardSimilarity (cleanText r.content) (cleanText existing.content)))

/-- The loop of `diversify`: `selected` is the accumulated output (in
selection order) and `counts` the per-source counter map (`0` for keys never
written, matching `sourceCounts[source] || 0`). -/
def diversifyGo (limitPerSource : ℕ) :
    List RankedResult → (String → ℕ) → List RankedResult → List RankedResult
  | selected, _, [] => selected
  | selected, counts, r :: rest =>
    let src := sourceOf r.toPineconeMatch
    if limitPerSource ≤ counts src then
      diversifyGo limitPerSource selected counts rest
    else if isDupOf selected r then
      diversifyGo limitPerSource selected counts rest
    else
      diversifyGo limitPerSource (selected ++ [r])
        (fun s => if s = src then counts src + 1 else counts s) rest

/-- `diversify` from the diversity module: cap chunks per source and drop
near-duplicates; the pipeline calls it with `limitPerSource = 2`. -/
def diversify (results : List RankedResult) (limitPerSource : ℕ := 2) : List RankedResult :=
  diversifyGo limitPerSource [] (fun _ => 0) results

/-! ## Budgeter (`trimToTokenBudget` in `utils.ts`) -/

/-- The loop of `trimToTokenBudget`: include a chunk only while
`currentTokens + tokens <= budget`; the `else` branch is a `break`, so the
first overflowing chunk stops the walk entirely. -/
def trimGo (budget : ℤ) : ℤ → List RankedResult → List RankedResult
  | _, [] => []
  | currentTokens, chunk :: rest =>
    let tokens : ℤ := countTokens chunk.content
    if currentTokens + tokens ≤ budget then
      chunk :: trimGo budget (currentTokens + tokens) rest
    else []

/-- `trimToTokenBudget` from `utils.ts`. -/
def trimToTokenBudget (chunks : List RankedResult) (budget : ℤ) : List RankedResult :=
  trimGo budget 0 chunks

/-! ## Pipeline orchestrator (`retrieveContext` in `rag.interface.ts`) -/

/-- `RAGQuery`; a `none` token budget is `undefined`, replaced by the
destructuring default `2000`. -/
structure RAGQuery where
  question : String
  intent : String
  topic : Option String := none
  tokenBudget : Option ℤ := none
deriving DecidableEq, Repr

/-- The result object of `retrieveContext` (the chunk list field is named
`context` in the source). -/
structure RAGResult where
  success : Bool
  context : List RankedResult
  totalTokens : ℤ
  error : Option String := none
deriving DecidableEq, Repr

/-- `retrieveContext` from `rag.interface.ts`.  The two awaited collaborator
calls are the only statements inside the `try` that can throw, and they are
modelled by `Except String` values: `.error msg` is a thrown exception whose
message is `msg` (`error.message`, or the `'Unknown error'` fallback for a
non-`Error` throwable), `.ok v` a normal return.  The search collaborator is
a function of the embedding, which is only consulted when the embedding call
succeeded, exactly as in the source, where an embedding throw skips the
search.  `buildFilters` is pure and its output only feeds the search
collaborator, so it is absorbed into the `search` parameter here.  On
success, `totalTokens` is `Math.ceil` of the sum of `content.length / 4`
over the final chunks. -/
def retrieveContext (query : RAGQuery) (now : ℚ)
    (embed : Except String (List ℚ))
    (search : List ℚ → Except String (List PineconeMatch)) : RAGResult :=
  let tokenBudget := query.tokenBudget.getD 2000
  match embed with
  | Except.error msg => { success := false, context := [], totalTokens := 0, error := some msg }
  | Except.ok queryEmbedding =>
    match search queryEmbedding with
    | Except.error msg => { success := false, context := [], totalTokens := 0, error := some msg }
    | Except.ok rawResults =>
      let rankedResults := rankResults now rawResults
      let diverseResults := diversify rankedResults 2
      let finalChunks := trimToTokenBudget diverseResults tokenBudget
      let totalTokens : ℚ :=
        (finalChunks.map (fun chunk => (chunk.content.length : ℚ) / 4)).sum
      { success := true, context := finalChunks, totalTokens := ⌈totalTokens⌉, error := none }

/-! ## Auxiliary definitions used by the specification statements -/

/-- Number of chunks in `l` whose diversifier source key is `s`. -/
def sourceCount (l : List RankedResult) (s : String) : ℕ :=
  l.countP (fun r => sourceOf r.toPineconeMatch == s)

/-- The candidate's `createdAt`, when present, parsed successfully
(this is the well-formedness condition of the data model, where a present
`createdAt` is a timestamp; it rules out the `NaN` path of the ranker). -/
def dateParses (r : PineconeMatch) : Prop :=
  r.metadata.bind (·.createdAt) ≠ some DateInput.invalid

/-- The candidate's `createdAt`, when present, parsed to a time not later
than the current clock value `now`. -/
def createdAtOk (now : ℚ) (r : PineconeMatch) : Prop :=
  match r.metadata.bind (·.createdAt) with
  | none => True
  | some (DateInput.valid t) => t ≤ now
  | some DateInput.invalid => False

/-- Two ranked chunks whose cleaned contents are not near-duplicates
(Jaccard similarity at most `0.85`). -/
def pairOK (a b : RankedResult) : Prop :=
  jaccardSimilarity (cleanText a.content) (cleanText b.content) ≤ 85/100

/-- Token sum of a chunk list, as the budgeter counts it (`ℤ`-valued for
direct comparison with the budget). -/
def tokenSum (l : List RankedResult) : ℤ :=
  (l.map (fun c => (countTokens c.content : ℤ))).sum

/-! ## Helper lemmas -/

theorem splitJS_ne_nil (l : List Char) : splitJS l ≠ [] := by
  induction l with
  | nil => simp [splitJS]
  | cons c rest ih =>
    simp only [splitJS]
    cases hc : jsWS c with
    | true =>
      simp only [hc, if_true]
      cases rest with
      | nil => simp
      | cons d rest' =>
        cases hd : jsWS d with
        | true => simpa [hd] using ih
        | false => simp [hd]
    | false =>
      simp only [hc, if_false, Bool.false_eq_true]
      cases hs : splitJS rest with
      | nil => exact absurd hs ih
      | cons w ws => simp [hs]

theorem wordFinset_nonempty (s : String) : wordFinset s ≠ ∅ := by
  unfold wordFinset
  cases hs : splitJS (toLowerJS s).data with
  | nil => exact absurd hs (splitJS_ne_nil _)
  | cons w ws =>
    have : String.mk w ∈ ((w :: ws).map (fun l => String.mk l)).toFinset := by simp
    exact Finset.ne_empty_of_mem this

theorem jaccard_no_fallback (s1 s2 : String) :
    jaccardSimilarity s1 s2 =
      ((wordFinset s1 ∩ wordFinset s2).card : ℚ) /
        ((wordFinset s1 ∪ wordFinset s2).card : ℚ) := by
  unfold jaccardSimilarity
  have h : (wordFinset s1 ∪ wordFinset s2).card ≠ 0 := by
    rw [Ne, Finset.card_eq_zero, Finset.union_eq_empty]
    rintro ⟨h1, _⟩
    exact wordFinset_nonempty s1 h1
  simp [h]

/-! ## C1 -/

/-- C1: `retrieveContext` never propagates a collaborator exception: whenever
the embedding call or the vector-search call throws, the pipeline catches it
and returns `success := false`, an empty chunk list, `totalTokens = 0`, and
an error message. -/
theorem retrieveContext_fail_soft (query : RAGQuery) (now : ℚ)
    (embed : Except String (List ℚ))
    (search : List ℚ → Except String (List PineconeMatch))
    (h : (∃ e, embed = Except.error e) ∨
         (∃ v e, embed = Except.ok v ∧ search v = Except.error e)) :
    (retrieveContext query now embed search).success = false ∧
    (retrieveContext query now embed search).context = [] ∧
    (retrieveContext query now embed search).totalTokens = 0 ∧
    ∃ msg, (retrieveContext query now embed search).error = some msg := by
  rcases h with ⟨e, he⟩ | ⟨v, e, hv, hs⟩
  · subst he
    exact ⟨rfl, rfl, rfl, e, rfl⟩
  · subst hv
    have hr : retrieveContext query now (Except.ok v) search =
        { success := false, context := [], totalTokens := 0, error := some e } := by
      simp [retrieveContext, hs]
    rw [hr]
    exact ⟨rfl, rfl, rfl, e, rfl⟩

/-- Witness for C1: a concrete query whose embedding collaborator throws. -/
theorem retrieveContext_fail_soft_witness :
    (retrieveContext ⟨"q", "chat", none, none⟩ 0 (Except.error "boom")
        (fun _ => Except.ok [])).success = false ∧
    (retrieveContext ⟨"q", "chat", none, none⟩ 0 (Except.error "boom")
        (fun _ => Except.ok [])).context = [] ∧
    (retrieveContext ⟨"q", "chat", none, none⟩ 0 (Except.error "boom")
        (fun _ => Except.ok [])).totalTokens = 0 ∧
    ∃ msg, (retrieveContext ⟨"q", "chat", none, none⟩ 0 (Except.error "boom")
        (fun _ => Except.ok [])).error = some msg :=
  retrieveContext_fail_soft _ _ _ _ (Or.inl ⟨"boom", rfl⟩)

/-! ## C6 -/

/-- C6 (code bug): for a candidate whose present `createdAt` fails to parse,
the ranker's recency factor is `NaN` — not the documented neutral `0.5` —
and the `NaN` propagates into the composite `final_score`.  `new Date(bad)`
does not throw (so the `catch` is dead code); it yields an invalid date whose
`getTime()` is `NaN`, and `Math.max(0, NaN) = NaN`. -/
theorem recencyScore_nan_on_invalid_date (now : ℚ) :
    recencyScore (some DateInput.invalid) now = JNum.nan ∧
    (scoreResult now ⟨1, "x", some ⟨some DateInput.invalid, none, none⟩⟩).debug_scores.recency
      = JNum.nan ∧
    (scoreResult now ⟨1, "x", some ⟨some DateInput.invalid, none, none⟩⟩).final_score
      = JNum.nan ∧
    JNum.nan ≠ JNum.num (1/2) := by
  refine ⟨rfl, rfl, rfl, ?_⟩
  intro h
  exact JNum.noConfusion h

/-! ## C7 -/

unseal Rat.add Rat.mul Rat.sub Rat.inv Rat.ofScientific in
/-- C7 (counterexample): a successful retrieval that selects two chunks of
two characters each returns `totalTokens = Math.ceil(2/4 + 2/4) = 1`, while
the sum of the per-chunk estimates `ceil(2/4) + ceil(2/4)` is `2`. -/
theorem totalTokens_not_per_chunk_sum :
    (retrieveContext ⟨"q", "chat", none, none⟩ 0 (Except.ok [])
        (fun _ => Except.ok [⟨0.9, "ab", none⟩, ⟨0.8, "cd", none⟩])).success = true ∧
    (retrieveContext ⟨"q", "chat", none, none⟩ 0 (Except.ok [])
        (fun _ => Except.ok [⟨0.9, "ab", none⟩, ⟨0.8, "cd", none⟩])).totalTokens = 1 ∧
    tokenSum (retrieveContext ⟨"q", "chat", none, none⟩ 0 (Except.ok [])
        (fun _ => Except.ok [⟨0.9, "ab", none⟩, ⟨0.8, "cd", none⟩])).context = 2 ∧
    (1 : ℤ) ≠ 2 := by decide

/-- C7 (amended): on every successful `retrieveContext` call, `totalTokens`
is the ceiling of the sum of `content.length / 4` over exactly the returned
chunks — i.e. `ceil(totalChars / 4)` — which can be smaller than the sum of
the per-chunk estimates `ceil(len/4)`. -/
theorem totalTokens_ceil_of_char_sum (query : RAGQuery) (now : ℚ)
    (embed : Except String (List ℚ))
    (search : List ℚ → Except String (List PineconeMatch))
    (v : List ℚ) (raw : List PineconeMatch)
    (h1 : embed = Except.ok v) (h2 : search v = Except.ok raw) :
    (retrieveContext query now embed search).success = true ∧
    (retrieveContext query now embed search).totalTokens =
      ⌈((retrieveContext query now embed search).context.map
          (fun c => (c.content.length : ℚ) / 4)).sum⌉ := by
  subst h1
  simp [retrieveContext, h2]

/-- Witness for the amended C7 at a concrete successful call. -/
theorem totalTokens_ceil_of_char_sum_witness :
    (retrieveContext ⟨"q", "chat", none, none⟩ 0 (Except.ok [])
        (fun _ => Except.ok [⟨1, "ab", none⟩])).success = true ∧
    (retrieveContext ⟨"q", "chat", none, none⟩ 0 (Except.ok [])
        (fun _ => Except.ok [⟨1, "ab", none⟩])).totalTokens =
      ⌈((retrieveContext ⟨"q", "chat", none, none⟩ 0 (Except.ok [])
          (fun _ => Except.ok [⟨1, "ab", none⟩])).context.map
          (fun c => (c.content.length : ℚ) / 4)).sum⌉ :=
  totalTokens_ceil_of_char_sum _ _ _ _ [] [⟨1, "ab", none⟩] rfl rfl

/-! ## C9 -/

unseal Rat.add Rat.mul Rat.sub Rat.inv Rat.ofScientific in
/-- C9 (counterexample): for two chunks whose cleaned content is the empty
string, the similarity used by the diversifier is `1`, not `0`: splitting
the empty string on `/\s+/` yields the singleton list `[""]`, so neither
word set is empty. -/
theorem jaccard_empty_cleaned_is_one :
    cleanText "" = "" ∧
    jaccardSimilarity (cleanText "") (cleanText "") = 1 ∧
    (1 : ℚ) ≠ 0 := by decide

unseal Rat.add Rat.mul Rat.sub Rat.inv Rat.ofScientific in
/-- C9 (amended): the diversifier's similarity is Jaccard
`|A∩B| / |A∪B|` over whitespace-tokenized, lower-cased word sets of the two
cleaned texts, where tokenization always produces at least one token (the
empty string tokenizes to the singleton set containing the empty token), so
the word sets are never empty, the `0`-for-empty-union fallback is
unreachable, and two chunks with empty cleaned content have similarity `1`;
cleaning strips markdown links keeping the link text, strips `#`, `*` and
backtick characters, and collapses whitespace. -/
theorem jaccard_word_sets_amended :
    (∀ s : String, wordFinset s ≠ ∅) ∧
    (∀ s1 s2 : String, jaccardSimilarity s1 s2 =
      ((wordFinset s1 ∩ wordFinset s2).card : ℚ) /
        ((wordFinset s1 ∪ wordFinset s2).card : ℚ)) ∧
    jaccardSimilarity (cleanText "") (cleanText "") = 1 ∧
    cleanText "see [docs](http://x)  ##for   *details*" = "see docs for details" :=
  ⟨wordFinset_nonempty, jaccard_no_fallback, by decide, by decide⟩

/-! ## C3 -/

theorem tokenSum_nonneg (l : List RankedResult) : 0 ≤ tokenSum l := by
  unfold tokenSum
  refine List.sum_nonneg ?_
  intro x hx
  simp only [List.mem_map] at hx
  obtain ⟨c, _, rfl⟩ := hx
  exact Int.natCast_nonneg _

theorem trimGo_take (budget : ℤ) :
    ∀ (l : List RankedResult) (cur : ℤ), ∃ k, trimGo budget cur l = l.take k := by
  intro l
  induction l with
  | nil => intro cur; exact ⟨0, rfl⟩
  | cons c rest ih =>
    intro cur
    simp only [trimGo]
    by_cases h : cur + (countTokens c.content : ℤ) ≤ budget
    · obtain ⟨k, hk⟩ := ih (cur + countTokens c.content)
      exact ⟨k + 1, by simp [h, hk]⟩
    · exact ⟨0, by simp [h]⟩

theorem trimGo_sum_le (budget : ℤ) :
    ∀ (l : List RankedResult) (cur : ℤ), cur ≤ budget →
      cur + tokenSum (trimGo budget cur l) ≤ budget := by
  intro l
  induction l with
  | nil => intro cur h; simpa [trimGo, tokenSum] using h
  | cons c rest ih =>
    intro cur h
    simp only [trimGo]
    by_cases hc : cur + (countTokens c.content : ℤ) ≤ budget
    · simp only [hc, if_true]
      have hrec := ih (cur + countTokens c.content) hc
      simp only [tokenSum, List.map_cons, List.sum_cons] at hrec ⊢
      omega
    · simpa [hc, tokenSum] using h

theorem trimGo_maximal (budget : ℤ) :
    ∀ (l : List RankedResult) (cur : ℤ) (k : ℕ), k ≤ l.length →
      cur + tokenSum (l.take k) ≤ budget →
      k ≤ (trimGo budget cur l).length := by
  intro l
  induction l with
  | nil =>
    intro cur k hk _
    simp only [trimGo, List.length_nil]
    simpa using hk
  | cons c rest ih =>
    intro cur k hk hsum
    cases k with
    | zero => simp
    | succ j =>
      have hsum' : (cur + (countTokens c.content : ℤ)) + tokenSum (rest.take j) ≤ budget := by
        simp only [List.take_succ_cons, tokenSum, List.map_cons, List.sum_cons] at hsum ⊢
        omega
      have hc : cur + (countTokens c.content : ℤ) ≤ budget := by
        have h0 : 0 ≤ tokenSum (rest.take j) := tokenSum_nonneg _
        omega
      simp only [trimGo, hc, if_true, List.length_cons]
      have := ih (cur + countTokens c.content) j (by simpa using hk) hsum'
      omega

/-- C3: for every chunk list and every (nonnegative, per the data model)
token budget, `trimToTokenBudget` returns the longest prefix of its input
whose summed per-chunk token estimates fit the budget: the output is a
prefix (so no later chunk is skipped ahead to and no chunk is truncated),
its token sum never exceeds the budget, and every prefix that fits is no
longer than it (greedy accumulation stops at the first overflowing chunk). -/
theorem trimToTokenBudget_greedy_prefix (chunks : List RankedResult) (budget : ℤ)
    (hb : 0 ≤ budget) :
    (∃ k, trimToTokenBudget chunks budget = chunks.take k) ∧
    tokenSum (trimToTokenBudget chunks budget) ≤ budget ∧
    ∀ k, k ≤ chunks.length → tokenSum (chunks.take k) ≤ budget →
      k ≤ (trimToTokenBudget chunks budget).length := by
  refine ⟨trimGo_take budget chunks 0, ?_, ?_⟩
  · have h := trimGo_sum_le budget chunks 0 hb
    simpa [trimToTokenBudget] using h
  · intro k h1 h2
    exact trimGo_maximal budget chunks 0 k h1 (by simpa using h2)

/-- Witness for C3 at a concrete chunk list and budget. -/
theorem trimToTokenBudget_greedy_prefix_witness :
    (0 : ℤ) ≤ 2000 ∧
    ((∃ k, trimToTokenBudget [scoreResult 0 ⟨1, "abcde", none⟩] 2000 =
        [scoreResult 0 ⟨1, "abcde", none⟩].take k) ∧
    tokenSum (trimToTokenBudget [scoreResult 0 ⟨1, "abcde", none⟩] 2000) ≤ 2000 ∧
    ∀ k, k ≤ [scoreResult 0 ⟨1, "abcde", none⟩].length →
      tokenSum ([scoreResult 0 ⟨1, "abcde", none⟩].take k) ≤ 2000 →
      k ≤ (trimToTokenBudget [scoreResult 0 ⟨1, "abcde", none⟩] 2000).length) :=
  ⟨by decide, trimToTokenBudget_greedy_prefix [scoreResult 0 ⟨1, "abcde", none⟩] 2000 (by decide)⟩

/-! ## C4 -/

theorem sourceCount_append_single (l : List RankedResult) (r : RankedResult) (s : String) :
    sourceCount (l ++ [r]) s =
      sourceCount l s + (if sourceOf r.toPineconeMatch == s then 1 else 0) := by
  simp [sourceCount, List.countP_append, List.countP_cons]

theorem diversifyGo_count_le (limit : ℕ) (s : String) (rest : List RankedResult) :
    ∀ (selected : List RankedResult) (counts : String → ℕ),
      sourceCount selected s ≤ counts s → sourceCount selected s ≤ limit →
      sourceCount (diversifyGo limit selected counts rest) s ≤ limit := by
  induction rest with
  | nil => intro sel counts _ h2; simpa [diversifyGo] using h2
  | cons r rest ih =>
    intro sel counts h1 h2
    simp only [diversifyGo]
    by_cases hcap : limit ≤ counts (sourceOf r.toPineconeMatch)
    · simp only [hcap, if_true]
      exact ih sel counts h1 h2
    · simp only [hcap, if_false]
      by_cases hdup : isDupOf sel r = true
      · simp only [hdup, if_true]
        exact ih sel counts h1 h2
      · simp only [Bool.not_eq_true] at hdup
        simp only [hdup, Bool.false_eq_true, if_false]
        apply ih
        · rw [sourceCount_append_single]
          rcases eq_or_ne s (sourceOf r.toPineconeMatch) with heq | hne
          · subst heq
            simp only [beq_self_eq_true, if_true, if_pos rfl]
            omega
          · have hbeq : (sourceOf r.toPineconeMatch == s) = false := by
              simp [beq_eq_false_iff_ne, Ne, hne.symm]
            simp only [hbeq, Bool.false_eq_true, if_false, if_neg hne]
            omega
        · rw [sourceCount_append_single]
          rcases eq_or_ne s (sourceOf r.toPineconeMatch) with heq | hne
          · subst heq
            simp only [beq_self_eq_true, if_true]
            omega
          · have hbeq : (sourceOf r.toPineconeMatch == s) = false := by
              simp [beq_eq_false_iff_ne, Ne, hne.symm]
            simp only [hbeq, Bool.false_eq_true, if_false]
            omega

unseal Rat.add Rat.mul Rat.sub Rat.inv Rat.ofScientific in
/-- C4: a `diversify` output never contains more than `limitPerSource`
chunks sharing a source key; and in the concrete scenario of three
candidates sharing source `docs.md` with scores `0.9, 0.8, 0.7` and
`limitPerSource = 2`, the output is exactly the top two by rank, dropping
the third even though its content is distinct from the other two. -/
theorem diversify_per_source_cap :
    (∀ (results : List RankedResult) (limit : ℕ) (s : String),
        sourceCount (diversify results limit) s ≤ limit) ∧
    (diversify (rankResults 0
        [⟨0.9, "alpha beta gamma", some ⟨none, some "docs.md", none⟩⟩,
         ⟨0.8, "delta epsilon zeta", some ⟨none, some "docs.md", none⟩⟩,
         ⟨0.7, "eta theta iota", some ⟨none, some "docs.md", none⟩⟩]) 2 =
      [scoreResult 0 ⟨0.9, "alpha beta gamma", some ⟨none, some "docs.md", none⟩⟩,
       scoreResult 0 ⟨0.8, "delta epsilon zeta", some ⟨none, some "docs.md", none⟩⟩]) ∧
    ("eta theta iota" : String) ≠ "alpha beta gamma" ∧
    ("eta theta iota" : String) ≠ "delta epsilon zeta" := by
  refine ⟨?_, by decide, by decide, by decide⟩
  intro results limit s
  exact diversifyGo_count_le limit s results [] (fun _ => 0)
    (by simp [sourceCount]) (by simp [sourceCount])

/-! ## C5 -/

theorem jaccard_comm (s1 s2 : String) :
    jaccardSimilarity s1 s2 = jaccardSimilarity s2 s1 := by
  simp only [jaccardSimilarity]
  rw [Finset.inter_comm, Finset.union_comm]

theorem diversifyGo_pairwise (limit : ℕ) (rest : List RankedResult) :
    ∀ (selected : List RankedResult) (counts : String → ℕ),
      List.Pairwise pairOK selected →
      List.Pairwise pairOK (diversifyGo limit selected counts rest) := by
  induction rest with
  | nil => intro sel counts h; simpa [diversifyGo] using h
  | cons r rest ih =>
    intro sel counts h
    simp only [diversifyGo]
    by_cases hcap : limit ≤ counts (sourceOf r.toPineconeMatch)
    · simp only [hcap, if_true]
      exact ih sel counts h
    · simp only [hcap, if_false]
      by_cases hdup : isDupOf sel r = true
      · simp only [hdup, if_true]
        exact ih sel counts h
      · simp only [Bool.not_eq_true] at hdup
        simp only [hdup, Bool.false_eq_true, if_false]
        apply ih
        rw [List.pairwise_append]
        refine ⟨h, List.pairwise_singleton _ _, ?_⟩
        intro a ha b hb
        simp only [List.mem_singleton] at hb
        unfold isDupOf at hdup
        rw [List.any_eq_false] at hdup
        have h85 := hdup a ha
        have h85' : jaccardSimilarity (cleanText r.content) (cleanText a.content) ≤ 85/100 := by
          simpa [not_lt] using h85
        rw [hb]
        unfold pairOK
        rw [jaccard_comm]
        exact h85'

unseal Rat.add Rat.mul Rat.sub Rat.inv Rat.ofScientific in
/-- C5: no two chunks in a `diversify` output have cleaned-text Jaccard
similarity above `0.85`; and in the concrete scenario of two candidates
from different sources with identical content, only the higher-ranked one
is kept (cross-source dedup). -/
theorem diversify_no_near_duplicates :
    (∀ (results : List RankedResult) (limit : ℕ),
        List.Pairwise pairOK (diversify results limit)) ∧
    (diversify (rankResults 0
        [⟨0.9, "hello world", some ⟨none, some "a.md", none⟩⟩,
         ⟨0.8, "hello world", some ⟨none, some "b.md", none⟩⟩]) 2 =
      [scoreResult 0 ⟨0.9, "hello world", some ⟨none, some "a.md", none⟩⟩]) := by
  refine ⟨?_, by decide⟩
  intro results limit
  exact diversifyGo_pairwise limit results [] (fun _ => 0) List.Pairwise.nil

/-! ## Ranker helper lemmas -/

/-- Non-increasing order on composite scores (of non-`NaN`-scored chunks). -/
def descBy (a b : RankedResult) : Prop :=
  numVal b.final_score ≤ numVal a.final_score

theorem sortInsert_perm (x : RankedResult) (l : List RankedResult) :
    (sortInsert x l).Perm (x :: l) := by
  induction l with
  | nil => exact List.Perm.refl _
  | cons y rest ih =>
    simp only [sortInsert]
    by_cases h : insBefore x y = true
    · rw [if_pos h]
    · rw [if_neg h]
      exact (ih.cons y).trans (List.Perm.swap x y rest)

theorem sortByScore_perm (l : List RankedResult) : (sortByScore l).Perm l := by
  induction l with
  | nil => exact List.Perm.refl _
  | cons x rest ih =>
    simp only [sortByScore]
    exact (sortInsert_perm x (sortByScore rest)).trans (ih.cons x)

theorem insBefore_iff (x y : RankedResult) (qx qy : ℚ)
    (hx : x.final_score = JNum.num qx) (hy : y.final_score = JNum.num qy) :
    insBefore x y = true ↔ qy ≤ qx := by
  simp [insBefore, jsub, hx, hy, sub_nonpos]

theorem insBefore_false (x y : RankedResult) (h : insBefore x y = false) :
    ∃ qx qy, x.final_score = JNum.num qx ∧ y.final_score = JNum.num qy ∧ qx < qy := by
  unfold insBefore at h
  cases hy : y.final_score with
  | nan => simp [jsub, hy] at h
  | num qy =>
    cases hx : x.final_score with
    | nan => simp [jsub, hy, hx] at h
    | num qx =>
      simp only [jsub, hy, hx, decide_eq_false_iff_not, not_le] at h
      exact ⟨qx, qy, rfl, rfl, by linarith⟩

theorem sortInsert_sorted (x : RankedResult) (l : List RankedResult)
    (hx : ∃ q, x.final_score = JNum.num q)
    (hl : ∀ z ∈ l, ∃ q, z.final_score = JNum.num q)
    (h : List.Pairwise descBy l) : List.Pairwise descBy (sortInsert x l) := by
  induction l with
  | nil => simp [sortInsert]
  | cons y rest ih =>
    obtain ⟨qx, hqx⟩ := hx
    obtain ⟨qy, hqy⟩ := hl y (List.mem_cons_self y rest)
    rw [List.pairwise_cons] at h
    simp only [sortInsert]
    by_cases hib : insBefore x y = true
    · rw [if_pos hib]
      rw [insBefore_iff x y qx qy hqx hqy] at hib
      refine List.Pairwise.cons ?_ (List.Pairwise.cons h.1 h.2)
      intro z hz
      rcases List.mem_cons.mp hz with rfl | hz'
      · unfold descBy
        rw [hqx, hqy]
        exact hib
      · have hyz := h.1 z hz'
        unfold descBy at hyz ⊢
        rw [hqx]
        rw [hqy] at hyz
        exact le_trans hyz hib
    · rw [if_neg hib]
      have hfalse : insBefore x y = false := by
        simpa using hib
      obtain ⟨qx', qy', hqx', hqy', hlt⟩ := insBefore_false x y hfalse
      refine List.Pairwise.cons ?_ (ih (fun z hz => hl z (List.mem_cons_of_mem y hz)) h.2)
      intro z hz
      rcases List.mem_cons.mp (((sortInsert_perm x rest).mem_iff).mp hz) with rfl | hz'
      · unfold descBy
        rw [hqx', hqy']
        exact le_of_lt hlt
      · exact h.1 z hz'

theorem sortByScore_sorted (l : List RankedResult)
    (hl : ∀ z ∈ l, ∃ q, z.final_score = JNum.num q) :
    List.Pairwise descBy (sortByScore l) := by
  induction l with
  | nil => simp [sortByScore]
  | cons x rest ih =>
    simp only [sortByScore]
    refine sortInsert_sorted x (sortByScore rest)
      (hl x (List.mem_cons_self x rest)) ?_ (ih fun z hz => hl z (List.mem_cons_of_mem x hz))
    intro z hz
    exact hl z (List.mem_cons_of_mem x (((sortByScore_perm rest).mem_iff).mp hz))

theorem sortInsert_filter (v : ℚ) (x : RankedResult) (l : List RankedResult) :
    (sortInsert x l).filter (fun r => r.final_score == JNum.num v) =
      if (x.final_score == JNum.num v) = true
      then x :: l.filter (fun r => r.final_score == JNum.num v)
      else l.filter (fun r => r.final_score == JNum.num v) := by
  induction l with
  | nil =>
    simp only [sortInsert, List.filter]
    by_cases hpx : (x.final_score == JNum.num v) = true
    · simp [hpx]
    · simp only [Bool.not_eq_true] at hpx
      simp [hpx]
  | cons y rest ih =>
    simp only [sortInsert]
    by_cases hib : insBefore x y = true
    · rw [if_pos hib]
      rw [List.filter_cons]
    · rw [if_neg hib]
      have hfalse : insBefore x y = false := by simpa using hib
      rw [List.filter_cons, List.filter_cons, ih]
      by_cases hpx : (x.final_score == JNum.num v) = true
      · have hpy : (y.final_score == JNum.num v) = false := by
          obtain ⟨qx, qy, hqx, hqy, hlt⟩ := insBefore_false x y hfalse
          rw [beq_iff_eq] at hpx
          rw [hpx] at hqx
          injection hqx with hvq
          rw [beq_eq_false_iff_ne, hqy, Ne]
          intro hcontra
          injection hcontra with h2
          linarith
        simp [hpx, hpy]
      · simp only [Bool.not_eq_true] at hpx
        simp [hpx]

theorem sortByScore_filter (v : ℚ) (l : List RankedResult) :
    (sortByScore l).filter (fun r => r.final_score == JNum.num v) =
      l.filter (fun r => r.final_score == JNum.num v) := by
  induction l with
  | nil => rfl
  | cons x rest ih =>
    simp only [sortByScore]
    rw [sortInsert_filter, List.filter_cons, ih]

theorem recencyScore_num_of_parses (c : Option DateInput) (now : ℚ)
    (h : c ≠ some DateInput.invalid) :
    ∃ q, recencyScore c now = JNum.num q ∧ 0 ≤ q := by
  cases c with
  | none => exact ⟨1/2, rfl, by norm_num⟩
  | some d =>
    cases d with
    | valid t =>
      refine ⟨max 0 (1 - ((now - t) / (1000*3600*24)) / 365), ?_, le_max_left _ _⟩
      simp [recencyScore, getTimeJ, jsub, jdivC, jmaxC]
    | invalid => exact absurd rfl h

theorem recencyScore_bounds (r : PineconeMatch) (now : ℚ) (h : createdAtOk now r) :
    ∃ q, recencyScore (r.metadata.bind (·.createdAt)) now = JNum.num q ∧ 0 ≤ q ∧ q ≤ 1 := by
  unfold createdAtOk at h
  cases hc : r.metadata.bind (·.createdAt) with
  | none => exact ⟨1/2, rfl, by norm_num, by norm_num⟩
  | some d =>
    rw [hc] at h
    cases d with
    | valid t =>
      have ht : t ≤ now := h
      refine ⟨max 0 (1 - ((now - t) / (1000*3600*24)) / 365), ?_, le_max_left _ _, ?_⟩
      · simp [recencyScore, getTimeJ, jsub, jdivC, jmaxC]
      · apply max_le (by norm_num)
        have h0 : (0:ℚ) ≤ (now - t) / (1000*3600*24) / 365 :=
          div_nonneg (div_nonneg (by linarith) (by norm_num)) (by norm_num)
        linarith
    | invalid => exact h.elim

theorem credibilityOf_bounds (s : String) : 0 ≤ credibilityOf s ∧ credibilityOf s ≤ 1 := by
  unfold credibilityOf
  split_ifs <;> norm_num

theorem sectionScoreOf_bounds (s : String) : 0 ≤ sectionScoreOf s ∧ sectionScoreOf s ≤ 1 := by
  simp only [sectionScoreOf]
  split_ifs <;> norm_num

theorem qualityScoreOf_bounds (s : String) : 0 ≤ qualityScoreOf s ∧ qualityScoreOf s ≤ 1 := by
  simp only [qualityScoreOf]
  split_ifs <;> norm_num

theorem scoreResult_fields (now : ℚ) (c : PineconeMatch) (rec : ℚ)
    (hrec : recencyScore (c.metadata.bind (·.createdAt)) now = JNum.num rec) :
    (scoreResult now c).debug_scores =
      ⟨JNum.num c.score, JNum.num rec,
       JNum.num (credibilityOf (jsOrStr (c.metadata.bind (·.source)) "unknown")),
       JNum.num (sectionScoreOf (jsOrStr (c.metadata.bind (·.sectionName)) "")),
       JNum.num (qualityScoreOf c.content)⟩ ∧
    (scoreResult now c).final_score =
      JNum.num (c.score * (50/100) + rec * (20/100) +
        credibilityOf (jsOrStr (c.metadata.bind (·.source)) "unknown") * (15/100) +
        sectionScoreOf (jsOrStr (c.metadata.bind (·.sectionName)) "") * (10/100) +
        qualityScoreOf c.content * (5/100)) := by
  constructor
  · simp [scoreResult, hrec]
  · simp [scoreResult, hrec, jadd, jmulC]

theorem scoreResult_num_of_parses (now : ℚ) (c : PineconeMatch) (h : dateParses c) :
    ∃ q, (scoreResult now c).final_score = JNum.num q := by
  obtain ⟨rec, hrec, _⟩ := recencyScore_num_of_parses (c.metadata.bind (·.createdAt)) now h
  exact ⟨_, (scoreResult_fields now c rec hrec).2⟩

/-! ## C2 -/

unseal Rat.add Rat.mul Rat.sub Rat.inv Rat.ofScientific in
/-- C2 (counterexample): a well-formed candidate (similarity `1 ∈ [0,1]`)
whose `createdAt` lies one year in the future gets recency factor `2` and
composite score `1.16 = 29/25`; the factors are not all clamped to `[0,1]`
and the composite exceeds `1`. -/
theorem composite_score_exceeds_one :
    ((rankResults 0 [⟨1, "hi", some ⟨some (DateInput.valid (365 * 86400000)),
        some "official_docs", some "api"⟩⟩]).map (fun r => r.debug_scores.recency))
      = [JNum.num 2] ∧
    ((rankResults 0 [⟨1, "hi", some ⟨some (DateInput.valid (365 * 86400000)),
        some "official_docs", some "api"⟩⟩]).map (fun r => r.final_score))
      = [JNum.num (29/25)] ∧
    ¬((2:ℚ) ≤ 1) ∧ ¬((29:ℚ)/25 ≤ 1) ∧ ((0:ℚ) ≤ 1 ∧ (1:ℚ) ≤ 1) := by decide

/-- C2 (amended): for every candidate whose similarity lies in `[0,1]` and
whose `createdAt` is absent or parses to a time not in the future, the
ranked chunk's factor breakdown consists of the five factors, each in
`[0,1]`, and the composite score is exactly
`0.50·semantic + 0.20·recency + 0.15·credibility + 0.10·section +
0.05·quality`, which then lies in `[0,1]`.  (Without the no-future-date
hypothesis the recency factor is only clamped from below and the composite
can exceed `1`.) -/
theorem rankResults_composite_formula (now : ℚ) (l : List PineconeMatch)
    (h : ∀ r ∈ l, 0 ≤ r.score ∧ r.score ≤ 1 ∧ createdAtOk now r) :
    ∀ rr ∈ rankResults now l, ∃ sem rec cred sec qual : ℚ,
      rr.debug_scores = ⟨JNum.num sem, JNum.num rec, JNum.num cred,
        JNum.num sec, JNum.num qual⟩ ∧
      rr.final_score = JNum.num (sem * (50/100) + rec * (20/100) + cred * (15/100) +
        sec * (10/100) + qual * (5/100)) ∧
      (0 ≤ sem ∧ sem ≤ 1) ∧ (0 ≤ rec ∧ rec ≤ 1) ∧ (0 ≤ cred ∧ cred ≤ 1) ∧
      (0 ≤ sec ∧ sec ≤ 1) ∧ (0 ≤ qual ∧ qual ≤ 1) ∧
      0 ≤ sem * (50/100) + rec * (20/100) + cred * (15/100) +
        sec * (10/100) + qual * (5/100) ∧
      sem * (50/100) + rec * (20/100) + cred * (15/100) +
        sec * (10/100) + qual * (5/100) ≤ 1 := by
  intro rr hrr
  have hmem : rr ∈ l.map (scoreResult now) := ((sortByScore_perm _).mem_iff).mp hrr
  rw [List.mem_map] at hmem
  obtain ⟨c, hc, rfl⟩ := hmem
  obtain ⟨hs0, hs1, hok⟩ := h c hc
  obtain ⟨rec, hrec, hrec0, hrec1⟩ := recencyScore_bounds c now hok
  obtain ⟨hdebug, hfinal⟩ := scoreResult_fields now c rec hrec
  obtain ⟨hcred0, hcred1⟩ := credibilityOf_bounds (jsOrStr (c.metadata.bind (·.source)) "unknown")
  obtain ⟨hsec0, hsec1⟩ := sectionScoreOf_bounds (jsOrStr (c.metadata.bind (·.sectionName)) "")
  obtain ⟨hq0, hq1⟩ := qualityScoreOf_bounds c.content
  refine ⟨c.score, rec, _, _, _, hdebug, hfinal, ⟨hs0, hs1⟩, ⟨hrec0, hrec1⟩,
    ⟨hcred0, hcred1⟩, ⟨hsec0, hsec1⟩, ⟨hq0, hq1⟩, ?_, ?_⟩
  · have t1 : (0:ℚ) ≤ c.score * (50/100) := mul_nonneg hs0 (by norm_num)
    have t2 : (0:ℚ) ≤ rec * (20/100) := mul_nonneg hrec0 (by norm_num)
    have t3 : (0:ℚ) ≤ credibilityOf (jsOrStr (c.metadata.bind (·.source)) "unknown") * (15/100) :=
      mul_nonneg hcred0 (by norm_num)
    have t4 : (0:ℚ) ≤ sectionScoreOf (jsOrStr (c.metadata.bind (·.sectionName)) "") * (10/100) :=
      mul_nonneg hsec0 (by norm_num)
    have t5 : (0:ℚ) ≤ qualityScoreOf c.content * (5/100) := mul_nonneg hq0 (by norm_num)
    linarith
  · have t1 : c.score * (50/100) ≤ 50/100 := mul_le_of_le_one_left (by norm_num) hs1
    have t2 : rec * (20/100) ≤ 20/100 := mul_le_of_le_one_left (by norm_num) hrec1
    have t3 : credibilityOf (jsOrStr (c.metadata.bind (·.source)) "unknown") * (15/100)
        ≤ 15/100 := mul_le_of_le_one_left (by norm_num) hcred1
    have t4 : sectionScoreOf (jsOrStr (c.metadata.bind (·.sectionName)) "") * (10/100)
        ≤ 10/100 := mul_le_of_le_one_left (by norm_num) hsec1
    have t5 : qualityScoreOf c.content * (5/100) ≤ 5/100 :=
      mul_le_of_le_one_left (by norm_num) hq1
    linarith

/-- Witness for the amended C2: the single ranked chunk produced for a
concrete candidate. -/
theorem rankResults_composite_formula_witness :
    ∃ sem rec cred sec qual : ℚ,
      (scoreResult 0 ⟨1, "hello", none⟩).debug_scores = ⟨JNum.num sem, JNum.num rec,
        JNum.num cred, JNum.num sec, JNum.num qual⟩ ∧
      (scoreResult 0 ⟨1, "hello", none⟩).final_score =
        JNum.num (sem * (50/100) + rec * (20/100) + cred * (15/100) +
          sec * (10/100) + qual * (5/100)) ∧
      (0 ≤ sem ∧ sem ≤ 1) ∧ (0 ≤ rec ∧ rec ≤ 1) ∧ (0 ≤ cred ∧ cred ≤ 1) ∧
      (0 ≤ sec ∧ sec ≤ 1) ∧ (0 ≤ qual ∧ qual ≤ 1) ∧
      0 ≤ sem * (50/100) + rec * (20/100) + cred * (15/100) +
        sec * (10/100) + qual * (5/100) ∧
      sem * (50/100) + rec * (20/100) + cred * (15/100) +
        sec * (10/100) + qual * (5/100) ≤ 1 :=
  rankResults_composite_formula 0 [⟨1, "hello", none⟩]
    (by
      intro r hr
      rw [List.mem_singleton] at hr
      subst hr
      exact ⟨by norm_num, by norm_num, trivial⟩)
    (scoreResult 0 ⟨1, "hello", none⟩)
    (List.mem_singleton.mpr rfl)

/-! ## C8 -/

/-- C8: for candidates whose `createdAt` values parse (the data model's
well-formedness; an unparsable date makes the comparator inconsistent via
`NaN`), the reranker's output is ordered non-increasingly by composite
score, and chunks with equal composite scores appear in exactly the input
order (stable sort): filtering the output at any score value yields the
same sequence as filtering the scored input. -/
theorem rankResults_sorted_stable (now : ℚ) (l : List PineconeMatch)
    (h : ∀ r ∈ l, dateParses r) :
    List.Pairwise descBy (rankResults now l) ∧
    ∀ v : ℚ, (rankResults now l).filter (fun r => r.final_score == JNum.num v) =
      (l.map (scoreResult now)).filter (fun r => r.final_score == JNum.num v) := by
  constructor
  · apply sortByScore_sorted
    intro z hz
    rw [List.mem_map] at hz
    obtain ⟨c, hc, rfl⟩ := hz
    exact scoreResult_num_of_parses now c (h c hc)
  · intro v
    exact sortByScore_filter v _

/-- Witness for C8 at a concrete candidate list. -/
theorem rankResults_sorted_stable_witness :
    List.Pairwise descBy (rankResults 0 [⟨0, "aa", none⟩, ⟨1, "bb", none⟩]) ∧
    ∀ v : ℚ, (rankResults 0 [⟨0, "aa", none⟩, ⟨1, "bb", none⟩]).filter
        (fun r => r.final_score == JNum.num v) =
      (([⟨0, "aa", none⟩, ⟨1, "bb", none⟩] : List PineconeMatch).map (scoreResult 0)).filter
        (fun r => r.final_score == JNum.num v) :=
  rankResults_sorted_stable 0 [⟨0, "aa", none⟩, ⟨1, "bb", none⟩] (by
    intro r hr
    rcases List.mem_cons.mp hr with rfl | hr'
    · simp [dateParses]
    · rw [List.mem_singleton] at hr'
      subst hr'
      simp [dateParses])

/-! ## C10 -/

/-- C10: `rankResults` returns exactly one ranked chunk per input candidate —
never dropping or adding elements — and each ranked chunk carries every field
of its original candidate unchanged, adding only the composite score and the
per-factor breakdown. -/
theorem rankResults_frame (now : ℚ) (l : List PineconeMatch) :
    (rankResults now l).length = l.length ∧
    (rankResults now l).Perm (l.map (scoreResult now)) ∧
    (∀ c : PineconeMatch, (scoreResult now c).toPineconeMatch = c) ∧
    ((rankResults now l).map (fun r => r.toPineconeMatch)).Perm l := by
  have hperm : (rankResults now l).Perm (l.map (scoreResult now)) := sortByScore_perm _
  refine ⟨?_, hperm, fun c => rfl, ?_⟩
  · rw [hperm.length_eq, List.length_map]
  · have hmap := hperm.map (fun r => r.toPineconeMatch)
    have hid : (l.map (scoreResult now)).map (fun r => r.toPineconeMatch) = l := by
      rw [List.map_map]
      exact List.map_id' l
    rw [hid] at hmap
    exact hmap
